import Mathlib

/-!
Verification of the name-case conversion library (`src/index.ts`).

The library is embedded shallowly:

* JS strings are Lean `String`s; the handful of JS string primitives the
  source uses (`trim`, `split`, `substring`, `charAt`, `toUpperCase`,
  `toLowerCase`, `join`) are defined below over `String.data`.
* The fixed regular expressions of the source are translated to decidable
  whole-string test functions (`mcTest`, `macTest`, `dloTest`, `romanTest`,
  `smallWordTest`, hyphen containment).  User-supplied regexes of
  `IgnoreRule.regex` are modelled as opaque boolean test functions, matching
  `RegExp.test`'s partial-match behaviour abstractly.
* The engine (`NameCaseConverter`) recurses into itself through the
  `HYPENATED` default converter and through `toTitleCase`'s multi-word
  branch.  That recursion is bounded (split parts contain no hyphen and
  tokens contain no whitespace), and is embedded with an explicit fuel
  parameter; fuel 4 is more than any input can consume, so the public entry
  points use it.
* `Converter` operators receive `(chunk, index, accumulated)`; the options
  argument of the source's `ConverterOperator` is used only by the built-in
  `HYPENATED` converter, which the engine interprets natively, so custom
  operators are modelled with the three-argument shape of the public
  `createConverter` API.
* The injected small-words converter of `NameCaseConverter.toTitleCase` is
  modelled by the `smallWords` flag of `Options`; the engine checks it
  exactly where the source's converter list does (after the ignore rules and
  before any other converter reachable together with it).
* The process-wide global options slot is modelled by an explicit
  `GlobalOptions` argument; `g0` is its state at process start.
-/

namespace CaseConverter

/-- JS whitespace class `\s`, restricted to its ASCII members: space, tab,
newline, carriage return, vertical tab, form feed. -/
def isWs (c : Char) : Bool :=
  c.toNat == 32 || c.toNat == 9 || c.toNat == 10 || c.toNat == 13 ||
  c.toNat == 11 || c.toNat == 12

/-- Build a string from its characters. -/
def strOf (l : List Char) : String :=
  String.mk l

/-- JS `toUpperCase` (ASCII model, per character). -/
def strUpper (s : String) : String :=
  strOf (s.data.map Char.toUpper)

/-- JS `toLowerCase` (ASCII model, per character). -/
def strLower (s : String) : String :=
  strOf (s.data.map Char.toLower)

/-- JS `trim`: whitespace stripped from both ends. -/
def jsTrim (s : String) : String :=
  strOf (((s.data.dropWhile isWs).reverse.dropWhile isWs).reverse)

/-- JS `s.substring(0, n)` restricted to the prefix shape `charAt`/`replace`
groups need: the first `n` characters. -/
def strTake (s : String) (n : Nat) : String :=
  strOf (s.data.take n)

/-- JS `s.substring(n, s.length)`: everything from index `n`. -/
def strDrop (s : String) (n : Nat) : String :=
  strOf (s.data.drop n)

/-- Whether `/\s+/.test(s)` holds: some character of `s` is whitespace. -/
def hasWs (s : String) : Bool :=
  s.data.any isWs

/-- No character of `s` is whitespace. -/
def wsFree (s : String) : Bool :=
  s.data.all (fun c => !isWs c)

/-- Core of JS `s.split(/\s+/)`: `cur` holds the characters of the pending
piece in reverse, `inWs` records whether the scanner stands inside a
whitespace run (each maximal run is one separator; a leading run contributes
a leading empty piece, a trailing run a trailing one, and `""` splits to
`[""]`, all as in JS). -/
def splitWsCore : List Char → List Char → Bool → List String
  | [], cur, inWs => if inWs then [""] else [strOf cur.reverse]
  | c :: rest, cur, inWs =>
    if isWs c then
      if inWs then splitWsCore rest cur true
      else strOf cur.reverse :: splitWsCore rest [] true
    else
      splitWsCore rest (c :: cur) false

/-- JS `s.split(/\s+/)`. -/
def splitWs (s : String) : List String :=
  splitWsCore s.data [] false

/-- Core of JS `s.split(sep)` for a one-character separator. -/
def splitCharCore (sep : Char) : List Char → List Char → List String
  | [], cur => [strOf cur.reverse]
  | c :: rest, cur =>
    if c == sep then strOf cur.reverse :: splitCharCore sep rest []
    else splitCharCore sep rest (c :: cur)

/-- JS `s.split(sep)` for a one-character separator string. -/
def splitChar (sep : Char) (s : String) : List String :=
  splitCharCore sep s.data []

/-- JS `parts.join(sep)`. -/
def joinWith (sep : String) : List String → String
  | [] => ""
  | [x] => x
  | x :: xs => x ++ sep ++ joinWith sep xs

/-- JS `parts.join('')`. -/
def strJoin (l : List String) : String :=
  joinWith "" l

/-- Test of `/^mc[A-Za-z]+$/i`. -/
def mcTest (s : String) : Bool :=
  match s.data with
  | c0 :: c1 :: rest =>
    c0.toLower == 'm' && c1.toLower == 'c' && !rest.isEmpty && rest.all Char.isAlpha
  | _ => false

/-- Test of `/^mac[A-Za-z]+$/i`. -/
def macTest (s : String) : Bool :=
  match s.data with
  | c0 :: c1 :: c2 :: rest =>
    c0.toLower == 'm' && c1.toLower == 'a' && c2.toLower == 'c' &&
    !rest.isEmpty && rest.all Char.isAlpha
  | _ => false

/-- Test of `/^[ldo]\'/i` (anchored at the start only; the tail of the token
is unconstrained, as for the source's partial-match `test`). -/
def dloTest (s : String) : Bool :=
  match s.data with
  | c0 :: c1 :: _ =>
    (c0.toLower == 'l' || c0.toLower == 'd' || c0.toLower == 'o') && c1 == '\''
  | _ => false

/-- Consume one leading `c` if present (a `c?` regex piece). -/
def dropOne (c : Char) : List Char → List Char
  | x :: rest => if x == c then rest else x :: rest
  | [] => []

/-- Consume up to `n` leading `c`s (a greedy `c{0,n}` regex piece). -/
def dropUpTo (n : Nat) (c : Char) (l : List Char) : List Char :=
  match n, l with
  | 0, l => l
  | _ + 1, [] => []
  | n + 1, x :: rest => if x == c then dropUpTo n c rest else x :: rest

/-- The `(C[MD]|D?C{0,3})` hundreds piece of the Roman-numeral regex (on
upper-cased characters; the leftmost alternative is preferred, which for a
whole-string match agrees with the regex's backtracking because no later
piece can consume `C`, `M` or `D`). -/
def romanHundreds : List Char → List Char
  | 'C' :: 'M' :: rest => rest
  | 'C' :: 'D' :: rest => rest
  | l => dropUpTo 3 'C' (dropOne 'D' l)

/-- The `(X[CL]|L?X{0,3})` tens piece of the Roman-numeral regex. -/
def romanTens : List Char → List Char
  | 'X' :: 'C' :: rest => rest
  | 'X' :: 'L' :: rest => rest
  | l => dropUpTo 3 'X' (dropOne 'L' l)

/-- The `(I[XV]|V?I{0,3})` units piece of the Roman-numeral regex. -/
def romanUnits : List Char → List Char
  | 'I' :: 'X' :: rest => rest
  | 'I' :: 'V' :: rest => rest
  | l => dropUpTo 3 'I' (dropOne 'V' l)

/-- Test of `/^(?=[MDCLXVI])M*(C[MD]|D?C{0,3})(X[CL]|L?X{0,3})(I[XV]|V?I{0,3})$/i`:
case-fold to upper case, consume each piece greedily, and require that the
whole (nonempty) string was consumed.  The lookahead `(?=[MDCLXVI])` is
equivalent to nonemptiness here because a full parse consumes only
Roman-digit characters. -/
def romanTest (s : String) : Bool :=
  let u := s.data.map Char.toUpper
  !u.isEmpty &&
    (romanUnits (romanTens (romanHundreds (u.dropWhile (· == 'M'))))).isEmpty

/-- The word set of `toTitleCase`'s injected converter regex
`/^(a|an|the|to|in|on|of|from|and|with)$/i`. -/
def smallWordList : List String :=
  ["a", "an", "the", "to", "in", "on", "of", "from", "and", "with"]

/-- Test of that regex: the lower-cased token is one of the small words. -/
def smallWordTest (s : String) : Bool :=
  smallWordList.contains (strLower s)

/-- `IgnoreRule`: a string, string-array or regex matcher (regexes are opaque
boolean tests).  `caseInsensitive` applies to the string forms only. -/
inductive IgnoreRule where
  | str (matcher : String) (caseInsensitive : Bool)
  | strs (matchers : List String) (caseInsensitive : Bool)
  | regex (test : String → Bool)

/-- `NameCaseConverter.matches(v1, v2, ci)`. -/
def jsMatches (v1 v2 : String) (ci : Bool) : Bool :=
  if ci then strLower v1 == strLower v2 else v1 == v2

/-- One pass of the ignore loop of `parseWord`: true iff the rule makes the
word be returned verbatim.  The string-array branch reproduces the JS
truthiness of `rule.matcher.find(...)`: a found empty-string member is falsy
and does not trigger the rule. -/
def ruleTriggers (w : String) : IgnoreRule → Bool
  | .str m ci => jsMatches w m ci
  | .strs ms ci =>
    match ms.find? (fun s => jsMatches w s ci) with
    | some s => s != ""
    | none => false
  | .regex t => t w

/-- A user-supplied `Converter`: an opaque regex test plus an operator
`(chunk, index, accumulated) => string`. -/
structure CustomConverter where
  test : String → Bool
  op : String → Nat → List String → String

/-- The enumeration of built-in converters (source spellings kept). -/
inductive ConverterId where
  | HYPENATED
  | MC
  | MAC
  | DLO_APOSTRAPHE
  | ROMAN_NUMERALS
deriving DecidableEq

/-- `NameCaseConverterOptions`, extended with the `smallWords` flag that
models `toTitleCase`'s injected small-words converter (the source carries it
as the first element of the `converters` list of the engine `toTitleCase`
spawns; no other code path ever combines it with further local
converters). -/
structure Options where
  ignores : List IgnoreRule := []
  converters : List CustomConverter := []
  disableDefault : Option (Bool ⊕ List ConverterId) := none
  smallWords : Bool := false

/-- The process-wide `NameCaseConverter.globalOptions` slot (only its
`ignores` and `converters` are ever read). -/
structure GlobalOptions where
  ignores : List IgnoreRule := []
  converters : List CustomConverter := []

/-- The global slot at process start: `{}`. -/
def g0 : GlobalOptions := {}

/-- The constructor's option merge: local ignores and converters first, the
global ones appended, `disableDefault` taken from the local options. -/
def mergeOptions (o : Options) (g : GlobalOptions) : Options :=
  { ignores := o.ignores ++ g.ignores
    converters := o.converters ++ g.converters
    disableDefault := o.disableDefault
    smallWords := o.smallWords }

/-- Declaration order of the built-in converter table. -/
def allDefaultIds : List ConverterId :=
  [.HYPENATED, .MC, .MAC, .DLO_APOSTRAPHE, .ROMAN_NUMERALS]

/-- The constructor's filter over the built-in table.  JS truthiness of
`options?.disableDefault`: `none` and `false` keep every converter, `true`
drops all, an id array (truthy even when empty) drops exactly its members. -/
def defaultEnabled (dd : Option (Bool ⊕ List ConverterId)) (id : ConverterId) : Bool :=
  match dd with
  | none => true
  | some (.inl b) => !b
  | some (.inr ids) => !ids.contains id

/-- The built-in converters that survive the filter, in declaration order. -/
def enabledDefaults (dd : Option (Bool ⊕ List ConverterId)) : List ConverterId :=
  allDefaultIds.filter (defaultEnabled dd)

/-- The regex test of a built-in converter (the hyphen regex is a
containment test, the others are as above). -/
def defaultTest (id : ConverterId) (w : String) : Bool :=
  match id with
  | .HYPENATED => w.data.contains '-'
  | .MC => mcTest w
  | .MAC => macTest w
  | .DLO_APOSTRAPHE => dloTest w
  | .ROMAN_NUMERALS => romanTest w

/-- The single-token branch of `NameCaseConverter.toTitleCase`:
`input.charAt(0).toUpperCase() + input.substring(1).toLowerCase()`. -/
def singleTitle (s : String) : String :=
  strUpper (strTake s 1) ++ strLower (strDrop s 1)

/-- The options of the engine `toTitleCase` spawns for multi-word input:
only the injected small-words converter. -/
def titleOptions : Options :=
  { smallWords := true }

/-- `NameCaseConverter.toTitleCase`, abstracted over the engine `eng` used
for the multi-word branch. -/
def titleWith (eng : Options → String → String) (input : String) : String :=
  if hasWs input then eng titleOptions input else singleTitle input

/-- `chunk.replace(/^(mc)([A-Za-z]+)$/i, '$1 $2')`: when the chunk matches,
the two groups are its first two characters and the rest. -/
def mcReplaced (w : String) : String :=
  if mcTest w then strTake w 2 ++ " " ++ strDrop w 2 else w

/-- `chunk.replace(/^(mac)([A-Za-z]+)$/i, '$1 $2')`. -/
def macReplaced (w : String) : String :=
  if macTest w then strTake w 3 ++ " " ++ strDrop w 3 else w

/-- The operator of a built-in converter, with the recursive engine (`eng`,
for `HYPENATED`) and `toTitleCase` (`title`) supplied as arguments.  `opts`
is the effective option set of the running engine, handed to the converters
spawned for hyphen parts exactly as the source hands `this.options`. -/
def applyDefault (eng : Options → String → String) (title : String → String)
    (opts : Options) (id : ConverterId) (w : String) (acc : List String) : String :=
  match id with
  | .HYPENATED =>
    joinWith "-" (((splitChar '-' w).map jsTrim).map (fun part => eng opts part))
  | .MC => strJoin ((splitChar ' ' (mcReplaced w)).map title)
  | .MAC => strJoin ((splitChar ' ' (macReplaced w)).map title)
  | .DLO_APOSTRAPHE =>
    let suffix := title (strDrop w 2)
    if acc.length != 0 then strTake w 1 ++ "'" ++ suffix
    else strUpper (strTake w 1) ++ "'" ++ suffix
  | .ROMAN_NUMERALS => strUpper w

/-- The operator of the injected small-words converter: lower-case the word,
except at position 0, where it is recursively title-cased. -/
def smallWordOp (title : String → String) (w : String) (acc : List String) : String :=
  if acc.length != 0 then strLower w else title w

/-- `NameCaseConverter.parseWord`, abstracted over the recursive engine and
`toTitleCase`: ignore rules first, then the converters in order (the
injected small-words converter where present, custom converters, enabled
built-ins), then the title-case fallback.  Operators receive
`accumulated.length` as the index and `accumulated` itself. -/
def parseWordWith (eng : Options → String → String) (title : String → String)
    (opts : Options) (w : String) (acc : List String) : String :=
  if opts.ignores.any (ruleTriggers w) then w
  else if opts.smallWords && smallWordTest w then smallWordOp title w acc
  else
    match opts.converters.find? (fun c => c.test w) with
    | some c => c.op w acc.length acc
    | none =>
      match (enabledDefaults opts.disableDefault).find? (fun id => defaultTest id w) with
      | some id => applyDefault eng title opts id w acc
      | none => title w

/-- The accumulation loop of `toString`: each word is parsed with read access
to the words already produced, and appended. -/
def foldWords (pw : String → List String → String) : List String → List String → List String
  | [], acc => acc
  | w :: ws, acc => foldWords pw ws (acc ++ [pw w acc])

/-- `new NameCaseConverter(input, opts).toString()` under global options `g`,
with fuel bounding the self-recursion (through hyphen parts and
`toTitleCase`).  Hyphen parts contain no hyphen and tokens no whitespace, so
every level past the second is unreachable and the out-of-fuel base case
(which returns the input unchanged) is never taken from the entry points. -/
def engineRun : Nat → GlobalOptions → Options → String → String
  | 0, _, _, input => input
  | fuel + 1, g, opts, input =>
    joinWith " "
      (foldWords
        (parseWordWith (engineRun fuel g) (titleWith (engineRun fuel g))
          (mergeOptions opts g))
        (splitWs (jsTrim input)) [])

/-- `parseWord` of an engine whose recursive calls run at the given fuel. -/
def parseWordF (fuel : Nat) (g : GlobalOptions) : Options → String → List String → String :=
  parseWordWith (engineRun fuel g) (titleWith (engineRun fuel g))

/-- `NameCaseConverter.toTitleCase` at the given fuel and global options. -/
def titleF (fuel : Nat) (g : GlobalOptions) : String → String :=
  titleWith (engineRun fuel g)

/-- Fuel that no input can exhaust (the dynamic depth is at most 3). -/
def FUEL : Nat := 4

/-- The public `toNameCase(input, options?)`, with the global slot explicit. -/
def toNameCase (input : String) (opts : Option Options) (g : GlobalOptions) : String :=
  engineRun FUEL g (opts.getD {}) input

/-- The public `toTitleCase(input)` (at the process-start global state). -/
def toTitleCase (input : String) : String :=
  titleF FUEL g0 input

/-- No two adjacent characters are both whitespace. -/
def okPairs : List Char → Bool
  | c1 :: c2 :: rest => !(isWs c1 && isWs c2) && okPairs (c2 :: rest)
  | _ => true

/-- Neither the first nor the last character is whitespace. -/
def noWsEdge (l : List Char) : Bool :=
  l.head?.all (fun c => !isWs c) && l.getLast?.all (fun c => !isWs c)

/-- Every whitespace character is the plain space. -/
def allWsSingleSpace (l : List Char) : Bool :=
  l.all (fun c => !isWs c || c == ' ')

/-- The join invariant: no leading or trailing whitespace, no two adjacent
whitespace characters, and every whitespace character a single space — i.e.
exactly one space stands between adjacent tokens. -/
def wellSpaced (s : String) : Bool :=
  noWsEdge s.data && okPairs s.data && allWsSingleSpace s.data

/-- The specification-side reading of "an IgnoreRule matches the token":
string equality (case-folded when insensitive), membership-wise equality for
a string array, a passing regex test. -/
def RuleMatches (r : IgnoreRule) (w : String) : Prop :=
  match r with
  | .str m ci => jsMatches w m ci = true
  | .strs ms ci => ∃ m ∈ ms, jsMatches w m ci = true
  | .regex t => t w = true

/-- The options of C3's counterexample: a string-set ignore rule whose only
member is the empty string, plus a custom converter that matches the empty
token and rewrites it to `"X"`. -/
def emptyMemberOptions : Options :=
  { ignores := [IgnoreRule.strs [""] false],
    converters := [⟨fun w => w == "", fun _ _ _ => "X"⟩] }

/-! Character-level facts about the ASCII case maps and whitespace. -/

theorem toNat_ofNat_valid (n : Nat) (h : n < 55296) : (Char.ofNat n).toNat = n := by
  rw [Char.ofNat, dif_pos (Or.inl h)]
  simp [Char.ofNatAux, Char.toNat, UInt32.toNat, BitVec.toNat_ofNatLt]

theorem toUpper_toUpper (c : Char) : c.toUpper.toUpper = c.toUpper := by
  unfold Char.toUpper
  by_cases h : c.toNat ≥ 97 ∧ c.toNat ≤ 122
  · rw [if_pos h]
    have h2 : (Char.ofNat (c.toNat - 32)).toNat = c.toNat - 32 :=
      toNat_ofNat_valid _ (by omega)
    rw [if_neg (by rw [h2]; omega)]
  · rw [if_neg h, if_neg h]

theorem toLower_toLower (c : Char) : c.toLower.toLower = c.toLower := by
  unfold Char.toLower
  by_cases h : c.toNat ≥ 65 ∧ c.toNat ≤ 90
  · rw [if_pos h]
    have h2 : (Char.ofNat (c.toNat + 32)).toNat = c.toNat + 32 :=
      toNat_ofNat_valid _ (by omega)
    rw [if_neg (by rw [h2]; omega)]
  · rw [if_neg h, if_neg h]

theorem isWs_iff_toNat (c : Char) :
    isWs c = true ↔
      c.toNat = 32 ∨ c.toNat = 9 ∨ c.toNat = 10 ∨ c.toNat = 13 ∨
      c.toNat = 11 ∨ c.toNat = 12 := by
  simp [isWs]
  tauto

theorem isWs_toUpper (c : Char) : isWs c.toUpper = isWs c := by
  unfold Char.toUpper
  by_cases h : c.toNat ≥ 97 ∧ c.toNat ≤ 122
  · rw [if_pos h]
    have h2 : (Char.ofNat (c.toNat - 32)).toNat = c.toNat - 32 :=
      toNat_ofNat_valid _ (by omega)
    have l : isWs (Char.ofNat (c.toNat - 32)) = false := by
      rw [Bool.eq_false_iff]
      intro hw
      rw [isWs_iff_toNat, h2] at hw
      omega
    have r : isWs c = false := by
      rw [Bool.eq_false_iff]
      intro hw
      rw [isWs_iff_toNat] at hw
      omega
    rw [l, r]
  · rw [if_neg h]

theorem isWs_toLower (c : Char) : isWs c.toLower = isWs c := by
  unfold Char.toLower
  by_cases h : c.toNat ≥ 65 ∧ c.toNat ≤ 90
  · rw [if_pos h]
    have h2 : (Char.ofNat (c.toNat + 32)).toNat = c.toNat + 32 :=
      toNat_ofNat_valid _ (by omega)
    have l : isWs (Char.ofNat (c.toNat + 32)) = false := by
      rw [Bool.eq_false_iff]
      intro hw
      rw [isWs_iff_toNat, h2] at hw
      omega
    have r : isWs c = false := by
      rw [Bool.eq_false_iff]
      intro hw
      rw [isWs_iff_toNat] at hw
      omega
    rw [l, r]
  · rw [if_neg h]

/-! String-level basics. -/

@[simp] theorem strOf_data (l : List Char) : (strOf l).data = l := rfl

theorem strOf_eq_empty_iff (l : List Char) : strOf l = "" ↔ l = [] := by
  constructor
  · intro h
    have := congrArg String.data h
    simpa using this
  · intro h
    rw [h]
    rfl

theorem wsFree_iff (s : String) : wsFree s = true ↔ ∀ c ∈ s.data, isWs c = false := by
  simp [wsFree]

theorem hasWs_eq_false_iff (s : String) : hasWs s = false ↔ wsFree s = true := by
  simp [hasWs, wsFree]

theorem wsFree_strUpper (s : String) (h : wsFree s = true) : wsFree (strUpper s) = true := by
  rw [wsFree_iff] at h ⊢
  intro c hc
  rw [strUpper, strOf_data, List.mem_map] at hc
  obtain ⟨a, ha, rfl⟩ := hc
  rw [isWs_toUpper]
  exact h a ha

theorem wsFree_strLower (s : String) (h : wsFree s = true) : wsFree (strLower s) = true := by
  rw [wsFree_iff] at h ⊢
  intro c hc
  rw [strLower, strOf_data, List.mem_map] at hc
  obtain ⟨a, ha, rfl⟩ := hc
  rw [isWs_toLower]
  exact h a ha

theorem data_append_str (a b : String) : (a ++ b).data = a.data ++ b.data :=
  String.data_append a b

theorem wsFree_append (a b : String) (ha : wsFree a = true) (hb : wsFree b = true) :
    wsFree (a ++ b) = true := by
  rw [wsFree_iff] at ha hb ⊢
  intro c hc
  rw [data_append_str, List.mem_append] at hc
  cases hc with
  | inl h => exact ha c h
  | inr h => exact hb c h

theorem wsFree_strTake (s : String) (n : Nat) (h : wsFree s = true) :
    wsFree (strTake s n) = true := by
  rw [wsFree_iff] at h ⊢
  intro c hc
  rw [strTake, strOf_data] at hc
  exact h c (List.mem_of_mem_take hc)

theorem wsFree_strDrop (s : String) (n : Nat) (h : wsFree s = true) :
    wsFree (strDrop s n) = true := by
  rw [wsFree_iff] at h ⊢
  intro c hc
  rw [strDrop, strOf_data] at hc
  exact h c (List.mem_of_mem_drop hc)

theorem wsFree_singleTitle (s : String) (h : wsFree s = true) :
    wsFree (singleTitle s) = true :=
  wsFree_append _ _ (wsFree_strUpper _ (wsFree_strTake _ _ h))
    (wsFree_strLower _ (wsFree_strDrop _ _ h))

theorem singleTitle_data (s : String) :
    (singleTitle s).data =
      (s.data.take 1).map Char.toUpper ++ (s.data.drop 1).map Char.toLower := by
  rw [singleTitle, data_append_str, strUpper, strLower, strTake, strDrop]
  rfl

theorem singleTitle_data_cons (c : Char) (cs : List Char) (s : String)
    (hs : s.data = c :: cs) :
    (singleTitle s).data = c.toUpper :: cs.map Char.toLower := by
  rw [singleTitle_data, hs]
  rfl

theorem singleTitle_ne_empty (s : String) (h : s ≠ "") : singleTitle s ≠ "" := by
  intro he
  apply h
  have hd := congrArg String.data he
  rcases hny : s.data with _ | ⟨c, cs⟩
  · exact String.ext (by rw [hny])
  · rw [singleTitle_data_cons c cs s hny] at hd
    simp at hd

theorem singleTitle_idem (s : String) : singleTitle (singleTitle s) = singleTitle s := by
  rcases hs : s.data with _ | ⟨c, cs⟩
  · have h0 : s = "" := String.ext (by rw [hs])
    rw [h0]
    rfl
  · apply String.ext
    rw [singleTitle_data_cons (c.toUpper) (cs.map Char.toLower) (singleTitle s)
      (singleTitle_data_cons c cs s hs)]
    rw [singleTitle_data_cons c cs s hs, toUpper_toUpper, List.map_map]
    congr 1
    apply List.map_congr_left
    intro a _
    exact toLower_toLower a

theorem singleTitle_of_wsFree_titleF (fuel : Nat) (g : GlobalOptions) (s : String)
    (h : wsFree s = true) : titleF fuel g s = singleTitle s := by
  rw [titleF, titleWith, if_neg]
  rw [Bool.not_eq_true]
  rw [hasWs_eq_false_iff]
  exact h

theorem toTitleCase_of_wsFree (s : String) (h : wsFree s = true) :
    toTitleCase s = singleTitle s :=
  singleTitle_of_wsFree_titleF FUEL g0 s h

/-! Facts about `dropWhile`, `jsTrim`, `splitWs`, `splitChar`, `joinWith`. -/

theorem dropWhile_of_all_not (p : Char → Bool) (l : List Char)
    (h : ∀ c ∈ l, p c = false) : l.dropWhile p = l := by
  cases l with
  | nil => rfl
  | cons c cs => rw [List.dropWhile_cons_of_neg (by simp [h c (by simp)])]

theorem dropWhile_of_all (p : Char → Bool) (l : List Char)
    (h : ∀ c ∈ l, p c = true) : l.dropWhile p = [] := by
  induction l with
  | nil => rfl
  | cons c cs ih =>
    rw [List.dropWhile_cons_of_pos (h c (by simp))]
    exact ih (fun x hx => h x (by simp [hx]))

theorem head?_dropWhile (p : Char → Bool) (l : List Char) (c : Char)
    (h : (l.dropWhile p).head? = some c) : p c = false := by
  induction l with
  | nil => simp at h
  | cons a as ih =>
    by_cases hp : p a
    · rw [List.dropWhile_cons_of_pos hp] at h
      exact ih h
    · rw [List.dropWhile_cons_of_neg hp] at h
      simp only [List.head?_cons, Option.some.injEq] at h
      rw [h] at hp
      simpa using hp

theorem getLast?_dropWhile (p : Char → Bool) (l : List Char)
    (h : l.dropWhile p ≠ []) : (l.dropWhile p).getLast? = l.getLast? := by
  induction l with
  | nil => simp at h
  | cons a as ih =>
    by_cases hp : p a
    · rw [List.dropWhile_cons_of_pos hp] at h ⊢
      rw [ih h]
      rcases hne : as with _ | ⟨b, bs⟩
      · rw [hne, List.dropWhile_nil] at h
        exact absurd rfl h
      · rw [List.getLast?_cons_cons]
    · rw [List.dropWhile_cons_of_neg hp]

theorem dropWhile_ne_nil_of_getLast (p : Char → Bool) (l : List Char) (c : Char)
    (hl : l.getLast? = some c) (hc : p c = false) : l.dropWhile p ≠ [] := by
  induction l with
  | nil => simp at hl
  | cons a as ih =>
    by_cases hp : p a
    · rw [List.dropWhile_cons_of_pos hp]
      rcases has : as with _ | ⟨b, bs⟩
      · rw [has] at hl
        simp only [List.getLast?_singleton, Option.some.injEq] at hl
        rw [hl] at hp
        rw [hp] at hc
        simp at hc
      · rw [has] at hl ih
        rw [List.getLast?_cons_cons] at hl
        exact ih hl
    · rw [List.dropWhile_cons_of_neg hp]
      simp

theorem jsTrim_data (s : String) :
    (jsTrim s).data = ((s.data.dropWhile isWs).reverse.dropWhile isWs).reverse := rfl

theorem jsTrim_of_wsFree (s : String) (h : wsFree s = true) : jsTrim s = s := by
  rw [wsFree_iff] at h
  apply String.ext
  rw [jsTrim_data]
  rw [dropWhile_of_all_not isWs s.data h]
  rw [dropWhile_of_all_not isWs s.data.reverse (fun c hc => h c (List.mem_reverse.mp hc))]
  exact List.reverse_reverse _

theorem jsTrim_of_allWs (s : String) (h : ∀ c ∈ s.data, isWs c = true) : jsTrim s = "" := by
  apply String.ext
  rw [jsTrim_data, dropWhile_of_all isWs s.data h]
  rfl

theorem jsTrim_head (s : String) (c : Char) (h : (jsTrim s).data.head? = some c) :
    isWs c = false := by
  rw [jsTrim_data, List.head?_reverse] at h
  have hne : (s.data.dropWhile isWs).reverse.dropWhile isWs ≠ [] := by
    intro hnil
    rw [hnil] at h
    simp at h
  rw [getLast?_dropWhile isWs _ hne, List.getLast?_reverse] at h
  exact head?_dropWhile isWs s.data c h

theorem jsTrim_getLast (s : String) (c : Char) (h : (jsTrim s).data.getLast? = some c) :
    isWs c = false := by
  rw [jsTrim_data, List.getLast?_reverse] at h
  exact head?_dropWhile isWs _ c h

theorem splitWsCore_wsFree (l : List Char) :
    ∀ cur b, (∀ c ∈ cur, isWs c = false) →
      ∀ t ∈ splitWsCore l cur b, wsFree t = true := by
  induction l with
  | nil =>
    intro cur b hcur t ht
    rw [splitWsCore] at ht
    by_cases hb : b
    · rw [if_pos hb] at ht
      simp only [List.mem_singleton] at ht
      rw [ht]
      rfl
    · rw [if_neg hb] at ht
      simp only [List.mem_singleton] at ht
      rw [ht, wsFree_iff]
      intro c hc
      exact hcur c (List.mem_reverse.mp hc)
  | cons a as ih =>
    intro cur b hcur t ht
    rw [splitWsCore] at ht
    by_cases hw : isWs a
    · rw [if_pos hw] at ht
      by_cases hb : b
      · rw [if_pos hb] at ht
        exact ih cur true hcur t ht
      · rw [if_neg hb] at ht
        rcases List.mem_cons.mp ht with h1 | h2
        · rw [h1, wsFree_iff]
          intro c hc
          exact hcur c (List.mem_reverse.mp hc)
        · exact ih [] true (by simp) t h2
    · rw [if_neg hw] at ht
      refine ih (a :: cur) false ?_ t ht
      intro c hc
      rcases List.mem_cons.mp hc with h1 | h2
      · rw [h1]
        simpa using hw
      · exact hcur c h2

theorem splitWsCore_of_all_not (l : List Char) :
    ∀ cur, (∀ c ∈ l, isWs c = false) →
      splitWsCore l cur false = [strOf (cur.reverse ++ l)] := by
  induction l with
  | nil =>
    intro cur _
    rw [splitWsCore, if_neg (by simp)]
    simp
  | cons a as ih =>
    intro cur h
    rw [splitWsCore, if_neg (by simp [h a (by simp)])]
    rw [ih (a :: cur) (fun c hc => h c (by simp [hc]))]
    simp

theorem splitWs_of_wsFree (s : String) (h : wsFree s = true) : splitWs s = [s] := by
  rw [wsFree_iff] at h
  rw [splitWs, splitWsCore_of_all_not s.data [] h]
  simp only [List.reverse_nil, List.nil_append]
  rw [show strOf s.data = s from String.ext rfl]

theorem splitWsCore_ne_empty (l : List Char) :
    ∀ cur b,
      (∀ c, l.getLast? = some c → isWs c = false) →
      (b = true → l ≠ []) →
      (b = false → cur = [] → ∃ c, l.head? = some c ∧ isWs c = false) →
      ∀ t ∈ splitWsCore l cur b, t ≠ "" := by
  induction l with
  | nil =>
    intro cur b _ hb hcur t ht
    rw [splitWsCore] at ht
    by_cases hbb : b
    · exact absurd rfl (hb hbb)
    · rw [if_neg hbb] at ht
      simp only [List.mem_singleton] at ht
      rw [ht]
      intro he
      rw [strOf_eq_empty_iff, List.reverse_eq_nil_iff] at he
      obtain ⟨c, hc, _⟩ := hcur (by simpa using hbb) he
      simp at hc
  | cons a as ih =>
    intro cur b htrail hb hcur t ht
    rw [splitWsCore] at ht
    by_cases hw : isWs a
    · have has : as ≠ [] := by
        intro hnil
        have := htrail a (by rw [hnil]; rfl)
        rw [hw] at this
        simp at this
      have htrail' : ∀ c, as.getLast? = some c → isWs c = false := by
        intro c hc
        apply htrail c
        rcases hne : as with _ | ⟨b2, bs⟩
        · exact absurd hne has
        · rw [hne] at hc
          rw [List.getLast?_cons_cons]
          exact hc
      rw [if_pos hw] at ht
      by_cases hbb : b
      · rw [if_pos hbb] at ht
        exact ih cur true htrail' (fun _ => has) (by simp) t ht
      · rw [if_neg hbb] at ht
        rcases List.mem_cons.mp ht with h1 | h2
        · rw [h1]
          intro he
          rw [strOf_eq_empty_iff, List.reverse_eq_nil_iff] at he
          obtain ⟨c, hc, hcw⟩ := hcur (by simpa using hbb) he
          simp only [List.head?_cons, Option.some.injEq] at hc
          rw [← hc] at hcw
          rw [hw] at hcw
          simp at hcw
        · exact ih [] true htrail' (fun _ => has) (by simp) t h2
    · rw [if_neg hw] at ht
      have htrail' : ∀ c, as.getLast? = some c → isWs c = false := by
        intro c hc
        apply htrail c
        rcases hne : as with _ | ⟨b2, bs⟩
        · rw [hne] at hc
          simp at hc
        · rw [hne] at hc
          rw [List.getLast?_cons_cons]
          exact hc
      exact ih (a :: cur) false htrail' (by simp) (by simp) t ht

theorem splitCharCore_wsFree (sep : Char) (l : List Char) :
    ∀ cur, (∀ c ∈ cur, isWs c = false) → (∀ c ∈ l, isWs c = false) →
      ∀ t ∈ splitCharCore sep l cur, wsFree t = true := by
  induction l with
  | nil =>
    intro cur hcur _ t ht
    rw [splitCharCore] at ht
    simp only [List.mem_singleton] at ht
    rw [ht, wsFree_iff]
    intro c hc
    exact hcur c (List.mem_reverse.mp hc)
  | cons a as ih =>
    intro cur hcur hl t ht
    rw [splitCharCore] at ht
    by_cases he : a == sep
    · rw [if_pos he] at ht
      rcases List.mem_cons.mp ht with h1 | h2
      · rw [h1, wsFree_iff]
        intro c hc
        exact hcur c (List.mem_reverse.mp hc)
      · exact ih [] (by simp) (fun c hc => hl c (by simp [hc])) t h2
    · rw [if_neg he] at ht
      refine ih (a :: cur) ?_ (fun c hc => hl c (by simp [hc])) t ht
      intro c hc
      rcases List.mem_cons.mp hc with h1 | h2
      · rw [h1]
        exact hl a (by simp)
      · exact hcur c h2

theorem splitCharCore_length_ge_two (sep : Char) (l : List Char)
    (hl : sep ∈ l) : ∀ cur, 2 ≤ (splitCharCore sep l cur).length := by
  induction l with
  | nil => simp at hl
  | cons a as ih =>
    intro cur
    rw [splitCharCore]
    by_cases he : a == sep
    · rw [if_pos he]
      have : 1 ≤ (splitCharCore sep as []).length := by
        cases has : as with
        | nil => rw [splitCharCore]; simp
        | cons b bs =>
          rw [splitCharCore]
          by_cases hb : b == sep
          · rw [if_pos hb]; simp
          · rw [if_neg hb]
            cases hres : splitCharCore sep bs (b :: []) with
            | nil =>
              exfalso
              have hne : ∀ (l2 : List Char) (cur2 : List Char),
                  splitCharCore sep l2 cur2 ≠ [] := by
                intro l2
                induction l2 with
                | nil => intro cur2; rw [splitCharCore]; simp
                | cons x xs ihx =>
                  intro cur2
                  rw [splitCharCore]
                  by_cases hx : x == sep
                  · rw [if_pos hx]; simp
                  · rw [if_neg hx]; exact ihx _
              exact hne bs (b :: []) hres
            | cons t ts => simp
      simp only [List.length_cons]
      omega
    · rw [if_neg he]
      have hmem : sep ∈ as := by
        rcases List.mem_cons.mp hl with h1 | h2
        · rw [h1] at he
          simp at he
        · exact h2
      exact ih hmem _

theorem splitCharCore_of_not_mem (sep : Char) (l : List Char)
    (h : sep ∉ l) : ∀ cur, splitCharCore sep l cur = [strOf (cur.reverse ++ l)] := by
  induction l with
  | nil =>
    intro cur
    rw [splitCharCore]
    simp
  | cons a as ih =>
    intro cur
    rw [splitCharCore, if_neg (by simp; intro hec; rw [hec] at h; simp at h)]
    rw [ih (fun hm => h (by simp [hm])) (a :: cur)]
    simp

theorem splitCharCore_pair (sep : Char) (xs ys : List Char)
    (hx : sep ∉ xs) (hy : sep ∉ ys) :
    ∀ cur, splitCharCore sep (xs ++ sep :: ys) cur =
      [strOf (cur.reverse ++ xs), strOf ys] := by
  induction xs with
  | nil =>
    intro cur
    rw [List.nil_append, splitCharCore, if_pos (by simp)]
    rw [splitCharCore_of_not_mem sep ys hy []]
    simp
  | cons a as ih =>
    intro cur
    rw [List.cons_append, splitCharCore,
      if_neg (by simp; intro hec; rw [hec] at hx; simp at hx)]
    rw [ih (fun hm => hx (by simp [hm])) (a :: cur)]
    simp

theorem joinWith_cons₂ (sep : String) (x y : String) (l : List String) :
    joinWith sep (x :: y :: l) = x ++ sep ++ joinWith sep (y :: l) := rfl

theorem wsFree_joinWith (sep : String) (hsep : wsFree sep = true) :
    ∀ l : List String, (∀ t ∈ l, wsFree t = true) → wsFree (joinWith sep l) = true := by
  intro l
  induction l with
  | nil => intro _; rfl
  | cons x xs ih =>
    intro h
    cases xs with
    | nil => exact h x (by simp)
    | cons y ys =>
      rw [joinWith_cons₂]
      refine wsFree_append _ _ (wsFree_append _ _ (h x (by simp)) hsep) ?_
      exact ih (fun t ht => h t (by simp [List.mem_cons.mp ht]))

theorem joinWith_hyphen_ne_empty (x y : String) (l : List String) :
    joinWith "-" (x :: y :: l) ≠ "" := by
  intro he
  have hd := congrArg String.data he
  rw [joinWith_cons₂, data_append_str, data_append_str] at hd
  simp at hd

/-! More string helpers. -/

theorem str_append_ne_empty_left (a b : String) (h : a ≠ "") : a ++ b ≠ "" := by
  intro he
  apply h
  have hd := congrArg String.data he
  rw [data_append_str] at hd
  exact String.ext (List.append_eq_nil.mp hd).1

theorem strUpper_ne_empty (s : String) (h : s ≠ "") : strUpper s ≠ "" := by
  intro he
  apply h
  have hd := congrArg String.data he
  rw [strUpper, strOf_data] at hd
  exact String.ext (by simpa using hd)

theorem strTake_ne_empty (s : String) (n : Nat) (hs : s ≠ "") (hn : n ≠ 0) :
    strTake s n ≠ "" := by
  intro he
  apply hs
  rw [strTake, strOf_eq_empty_iff, List.take_eq_nil_iff] at he
  rcases he with h | h
  · exact absurd h hn
  · exact String.ext (by simpa using h)

theorem space_not_mem_of_wsFree (s : String) (h : wsFree s = true) : ' ' ∉ s.data := by
  intro hm
  rw [wsFree_iff] at h
  have := h ' ' hm
  simp [isWs] at this

/-! `okPairs`, `wellSpaced` and the join invariant. -/

theorem band_elim {a b : Bool} (h : (a && b) = true) : a = true ∧ b = true := by
  simpa using h

theorem band_intro {a b : Bool} (ha : a = true) (hb : b = true) : (a && b) = true := by
  simp [ha, hb]

theorem okPairs_of_all_not (l : List Char) (h : ∀ c ∈ l, isWs c = false) :
    okPairs l = true := by
  induction l with
  | nil => rfl
  | cons a as ih =>
    cases as with
    | nil => rfl
    | cons b bs =>
      rw [okPairs]
      have ha := h a (by simp)
      have hrec := ih (fun c hc => h c (by simp [List.mem_cons.mp hc]))
      rw [ha, hrec]
      simp

theorem okPairs_append (xs ys : List Char) (hx : okPairs xs = true) (hy : okPairs ys = true)
    (hb : ∀ cx cy, xs.getLast? = some cx → ys.head? = some cy → (isWs cx && isWs cy) = false) :
    okPairs (xs ++ ys) = true := by
  induction xs with
  | nil => simpa using hy
  | cons a as ih =>
    cases as with
    | nil =>
      cases ys with
      | nil => simpa using hx
      | cons y ys' =>
        rw [List.singleton_append, okPairs]
        rw [hb a y rfl rfl, hy]
        rfl
    | cons b bs =>
      rw [okPairs] at hx
      have hx1 : (!(isWs a && isWs b)) = true := (band_elim hx).1
      have hx2 : okPairs (b :: bs) = true := (band_elim hx).2
      have hbl : ∀ cx cy, (b :: bs).getLast? = some cx → ys.head? = some cy →
          (isWs cx && isWs cy) = false := by
        intro cx cy hcx hcy
        exact hb cx cy (by rw [List.getLast?_cons_cons]; exact hcx) hcy
      have := ih hx2 hbl
      rw [List.cons_append, List.cons_append, okPairs]
      rw [show (b :: bs) ++ ys = b :: (bs ++ ys) from rfl] at this
      rw [this, hx1]
      rfl

theorem allWsSingleSpace_of_all_not (l : List Char) (h : ∀ c ∈ l, isWs c = false) :
    allWsSingleSpace l = true := by
  rw [allWsSingleSpace, List.all_eq_true]
  intro c hc
  rw [h c hc]
  rfl

/-- Data of a two-step append. -/
theorem data_append₃ (a b c : String) : (a ++ b ++ c).data = a.data ++ b.data ++ c.data := by
  rw [data_append_str, data_append_str]

/-- The join invariant components, for a nonempty list of nonempty
whitespace-free strings joined with a single space. -/
theorem joinWith_space_invariant (l : List String) (hne : l ≠ [])
    (h : ∀ t ∈ l, t ≠ "" ∧ (∀ c ∈ t.data, isWs c = false)) :
    (joinWith " " l).data ≠ [] ∧
    (∀ c, (joinWith " " l).data.head? = some c → isWs c = false) ∧
    (∀ c, (joinWith " " l).data.getLast? = some c → isWs c = false) ∧
    okPairs (joinWith " " l).data = true ∧
    allWsSingleSpace (joinWith " " l).data = true := by
  induction l with
  | nil => exact absurd rfl hne
  | cons x xs ih =>
    cases xs with
    | nil =>
      obtain ⟨hx, hxc⟩ := h x (by simp)
      have hxd : x.data ≠ [] := fun hnil => hx (String.ext hnil)
      refine ⟨hxd, ?_, ?_, okPairs_of_all_not _ hxc, allWsSingleSpace_of_all_not _ hxc⟩
      · intro c hc
        exact hxc c (List.mem_of_mem_head? hc)
      · intro c hc
        exact hxc c (List.mem_of_mem_getLast? hc)
    | cons y ys =>
      obtain ⟨hx, hxc⟩ := h x (by simp)
      have hxd : x.data ≠ [] := fun hnil => hx (String.ext hnil)
      obtain ⟨hrd, hrh, hrl, hrp, hrs⟩ :=
        ih (by simp) (fun t ht => h t (by simp [List.mem_cons.mp ht]))
      rw [joinWith_cons₂, data_append₃]
      have hsp : (" " : String).data = [' '] := rfl
      rw [hsp]
      have hxlast : ∀ c, x.data.getLast? = some c → isWs c = false := by
        intro c hc
        exact hxc c (List.mem_of_mem_getLast? hc)
      constructor
      · simp [hxd]
      constructor
      · intro c hc
        rcases hhd : x.data with _ | ⟨c0, cs⟩
        · exact absurd hhd hxd
        · rw [hhd] at hc
          simp only [List.cons_append, List.head?_cons, Option.some.injEq] at hc
          rw [← hc]
          exact hxc c0 (by rw [hhd]; simp)
      constructor
      · intro c hc
        rw [List.append_assoc, List.getLast?_append_of_ne_nil _ (by simp [hrd])] at hc
        rw [List.getLast?_append_of_ne_nil _ hrd] at hc
        exact hrl c hc
      constructor
      · rw [List.append_assoc]
        apply okPairs_append _ _ (okPairs_of_all_not _ hxc)
        · rcases hrdd : (joinWith " " (y :: ys)).data with _ | ⟨r0, rs⟩
          · exact absurd hrdd hrd
          · rw [List.singleton_append]
            have hr0 : isWs r0 = false := by
              apply hrh
              rw [hrdd]
              rfl
            show (!(isWs ' ' && isWs r0) && okPairs (r0 :: rs)) = true
            rw [hr0]
            simp only [Bool.and_false, Bool.not_false, Bool.true_and]
            rw [← hrdd]
            exact hrp
        · intro cx cy hcx hcy
          simp only [List.head?_cons, Option.some.injEq] at hcy
          rw [hxlast cx hcx]
          rfl
      · rw [allWsSingleSpace, List.all_append, List.all_append]
        refine band_intro (band_intro ?_ ?_) hrs
        · exact allWsSingleSpace_of_all_not _ hxc
        · rfl

theorem wellSpaced_joinWith_space (l : List String) (hne : l ≠ [])
    (h : ∀ t ∈ l, t ≠ "" ∧ wsFree t = true) : wellSpaced (joinWith " " l) = true := by
  obtain ⟨_, hh, hl, hp, hs⟩ :=
    joinWith_space_invariant l hne
      (fun t ht => ⟨(h t ht).1, fun c hc => (wsFree_iff t).mp (h t ht).2 c hc⟩)
  rw [wellSpaced]
  refine band_intro (band_intro ?_ hp) hs
  rw [noWsEdge]
  refine band_intro ?_ ?_
  · rcases hhd : (joinWith " " l).data.head? with _ | c
    · rfl
    · simpa [Option.all] using hh c hhd
  · rcases hld : (joinWith " " l).data.getLast? with _ | c
    · rfl
    · simpa [Option.all] using hl c hld

/-! Engine equations. -/

theorem engineRun_succ (fuel : Nat) (g : GlobalOptions) (opts : Options) (input : String) :
    engineRun (fuel + 1) g opts input =
      joinWith " "
        (foldWords (parseWordF fuel g (mergeOptions opts g)) (splitWs (jsTrim input)) []) := rfl

theorem toNameCase_eq (s : String) (opts : Option Options) (g : GlobalOptions) :
    toNameCase s opts g =
      joinWith " "
        (foldWords (parseWordF 3 g (mergeOptions (opts.getD {}) g)) (splitWs (jsTrim s)) []) := rfl

theorem mergeOptions_empty : mergeOptions {} g0 = {} := rfl

theorem foldWords_mem (pw : String → List String → String) (Q : String → Prop) :
    ∀ ws acc, (∀ w ∈ ws, ∀ a, Q (pw w a)) → (∀ x ∈ acc, Q x) →
      ∀ x ∈ foldWords pw ws acc, Q x := by
  intro ws
  induction ws with
  | nil =>
    intro acc _ hacc x hx
    exact hacc x hx
  | cons w ws ih =>
    intro acc hws hacc x hx
    rw [foldWords] at hx
    refine ih (acc ++ [pw w acc]) (fun w2 hw2 a => hws w2 (by simp [hw2]) a) ?_ x hx
    intro y hy
    rcases List.mem_append.mp hy with h1 | h2
    · exact hacc y h1
    · rw [List.mem_singleton.mp h2]
      exact hws w (by simp) acc

theorem foldWords_length (pw : String → List String → String) :
    ∀ ws acc, (foldWords pw ws acc).length = acc.length + ws.length := by
  intro ws
  induction ws with
  | nil =>
    intro acc
    rw [foldWords]
    rfl
  | cons w ws ih =>
    intro acc
    rw [foldWords, ih]
    simp
    omega

theorem foldWords_const (f : String → String) :
    ∀ ws acc, foldWords (fun w _ => f w) ws acc = acc ++ ws.map f := by
  intro ws
  induction ws with
  | nil =>
    intro acc
    rw [foldWords]
    simp
  | cons w ws ih =>
    intro acc
    rw [foldWords, ih]
    simp

/-- With an empty effective option set, `parseWord` reduces to the built-in
converter scan followed by the title-case fallback. -/
theorem parseWordF_empty_eq (fuel : Nat) (g : GlobalOptions) (w : String) (acc : List String) :
    parseWordF fuel g {} w acc =
      match allDefaultIds.find? (fun id => defaultTest id w) with
      | some id => applyDefault (engineRun fuel g) (titleF fuel g) {} id w acc
      | none => titleF fuel g w := rfl

/-- The built-in scan, spelled out: hyphen first, then MC, MAC, the
apostrophe prefixes and Roman numerals. -/
theorem find?_defaults (w : String) :
    allDefaultIds.find? (fun id => defaultTest id w) =
      if w.data.contains '-' then some .HYPENATED
      else if mcTest w then some .MC
      else if macTest w then some .MAC
      else if dloTest w then some .DLO_APOSTRAPHE
      else if romanTest w then some .ROMAN_NUMERALS
      else none := by
  rw [allDefaultIds]
  by_cases h1 : w.data.contains '-' = true
  · rw [List.find?_cons_of_pos (p := fun id => defaultTest id w) _ (show defaultTest ConverterId.HYPENATED w = true from h1), if_pos h1]
  · rw [List.find?_cons_of_neg (p := fun id => defaultTest id w) _ (show ¬defaultTest ConverterId.HYPENATED w = true from h1), if_neg h1]
    by_cases h2 : mcTest w = true
    · rw [List.find?_cons_of_pos (p := fun id => defaultTest id w) _ (show defaultTest ConverterId.MC w = true from h2), if_pos h2]
    · rw [List.find?_cons_of_neg (p := fun id => defaultTest id w) _ (show ¬defaultTest ConverterId.MC w = true from h2), if_neg h2]
      by_cases h3 : macTest w = true
      · rw [List.find?_cons_of_pos (p := fun id => defaultTest id w) _ (show defaultTest ConverterId.MAC w = true from h3), if_pos h3]
      · rw [List.find?_cons_of_neg (p := fun id => defaultTest id w) _ (show ¬defaultTest ConverterId.MAC w = true from h3), if_neg h3]
        by_cases h4 : dloTest w = true
        · rw [List.find?_cons_of_pos (p := fun id => defaultTest id w) _ (show defaultTest ConverterId.DLO_APOSTRAPHE w = true from h4), if_pos h4]
        · rw [List.find?_cons_of_neg (p := fun id => defaultTest id w) _ (show ¬defaultTest ConverterId.DLO_APOSTRAPHE w = true from h4), if_neg h4]
          by_cases h5 : romanTest w = true
          · rw [List.find?_cons_of_pos (p := fun id => defaultTest id w) _ (show defaultTest ConverterId.ROMAN_NUMERALS w = true from h5), if_pos h5]
          · rw [List.find?_cons_of_neg (p := fun id => defaultTest id w) _ (show ¬defaultTest ConverterId.ROMAN_NUMERALS w = true from h5), if_neg h5]
            rfl

/-- `parseWord` under the empty option set, when a built-in converter is the
first match. -/
theorem parseWordF_empty_of_find (fuel : Nat) (g : GlobalOptions) (w : String)
    (acc : List String) (id : ConverterId)
    (h : allDefaultIds.find? (fun i => defaultTest i w) = some id) :
    parseWordF fuel g {} w acc =
      applyDefault (engineRun fuel g) (titleF fuel g) {} id w acc := by
  rw [parseWordF_empty_eq, h]

/-- `parseWord` under the empty option set, when no built-in converter
matches: the title-case fallback. -/
theorem parseWordF_empty_of_none (fuel : Nat) (g : GlobalOptions) (w : String)
    (acc : List String)
    (h : allDefaultIds.find? (fun i => defaultTest i w) = none) :
    parseWordF fuel g {} w acc = titleF fuel g w := by
  rw [parseWordF_empty_eq, h]

theorem wsFree_titleF (fuel : Nat) (g : GlobalOptions) (s : String) (h : wsFree s = true) :
    wsFree (titleF fuel g s) = true := by
  rw [singleTitle_of_wsFree_titleF fuel g s h]
  exact wsFree_singleTitle s h

theorem titleF_ne_empty (fuel : Nat) (g : GlobalOptions) (s : String) (h : wsFree s = true)
    (hne : s ≠ "") : titleF fuel g s ≠ "" := by
  rw [singleTitle_of_wsFree_titleF fuel g s h]
  exact singleTitle_ne_empty s hne

theorem replaced_space_data (w : String) (n : Nat) :
    (strTake w n ++ " " ++ strDrop w n).data = w.data.take n ++ ' ' :: w.data.drop n := by
  rw [data_append₃]
  rw [show (" " : String).data = [' '] from rfl]
  rw [strTake, strDrop, strOf_data, strOf_data, List.append_assoc]
  rfl

theorem splitChar_replaced (w : String) (n : Nat) (hw : wsFree w = true) :
    splitChar ' ' (strTake w n ++ " " ++ strDrop w n) = [strTake w n, strDrop w n] := by
  rw [splitChar, replaced_space_data]
  rw [splitCharCore_pair ' ' (w.data.take n) (w.data.drop n)
    (fun hm => space_not_mem_of_wsFree w hw (List.mem_of_mem_take hm))
    (fun hm => space_not_mem_of_wsFree w hw (List.mem_of_mem_drop hm)) []]
  rfl

/-- Under the empty option set, each parsed word is whitespace-free and
nonempty whenever the word itself is, provided the engine one level down
has the same property. -/
theorem parseWordF_empty_wsFree (fuel : Nat)
    (hE : ∀ p, wsFree p = true →
      wsFree (engineRun fuel g0 {} p) = true ∧ (p ≠ "" → engineRun fuel g0 {} p ≠ "")) :
    ∀ w acc, wsFree w = true →
      wsFree (parseWordF fuel g0 {} w acc) = true ∧
      (w ≠ "" → parseWordF fuel g0 {} w acc ≠ "") := by
  intro w acc hw
  by_cases hH : w.data.contains '-' = true
  · rw [parseWordF_empty_of_find fuel g0 w acc .HYPENATED
      (by rw [find?_defaults, if_pos hH])]
    rw [applyDefault]
    have hparts : ∀ part ∈ splitChar '-' w, wsFree part = true := by
      intro part hp
      exact splitCharCore_wsFree '-' w.data [] (by simp)
        (fun c hc => (wsFree_iff w).mp hw c hc) part hp
    have helems : ∀ t ∈ ((splitChar '-' w).map jsTrim).map
        (fun part => engineRun fuel g0 ({} : Options) part), wsFree t = true := by
      intro t ht
      rw [List.mem_map] at ht
      obtain ⟨q, hq, rfl⟩ := ht
      rw [List.mem_map] at hq
      obtain ⟨part, hpart, rfl⟩ := hq
      have hpw := hparts part hpart
      rw [jsTrim_of_wsFree part hpw]
      exact (hE part hpw).1
    constructor
    · exact wsFree_joinWith "-" (by decide) _ helems
    · intro _
      have hmem : '-' ∈ w.data := by simpa using hH
      have hlen : 2 ≤ (((splitChar '-' w).map jsTrim).map
          (fun part => engineRun fuel g0 ({} : Options) part)).length := by
        simpa using splitCharCore_length_ge_two '-' w.data hmem []
      rcases hres : ((splitChar '-' w).map jsTrim).map
          (fun part => engineRun fuel g0 ({} : Options) part) with _ | ⟨x, _ | ⟨y, l⟩⟩
      · rw [hres] at hlen
        simp at hlen
      · rw [hres] at hlen
        simp at hlen
      · exact joinWith_hyphen_ne_empty x y l
  · have hH' : w.data.contains '-' = false := by simpa using hH
    by_cases hM : mcTest w = true
    · rw [parseWordF_empty_of_find fuel g0 w acc .MC
        (by rw [find?_defaults, hH', if_neg (by simp), if_pos hM])]
      rw [applyDefault, mcReplaced, if_pos hM, splitChar_replaced w 2 hw]
      have ht1 : wsFree (strTake w 2) = true := wsFree_strTake w 2 hw
      have ht2 : wsFree (strDrop w 2) = true := wsFree_strDrop w 2 hw
      constructor
      · show wsFree (titleF fuel g0 (strTake w 2) ++ "" ++ titleF fuel g0 (strDrop w 2)) = true
        refine wsFree_append _ _ (wsFree_append _ _ ?_ (by decide)) ?_
        · exact wsFree_titleF fuel g0 _ ht1
        · exact wsFree_titleF fuel g0 _ ht2
      · intro hne
        show titleF fuel g0 (strTake w 2) ++ "" ++ titleF fuel g0 (strDrop w 2) ≠ ""
        refine str_append_ne_empty_left _ _ (str_append_ne_empty_left _ _ ?_)
        exact titleF_ne_empty fuel g0 _ ht1 (strTake_ne_empty w 2 hne (by omega))
    · have hM' : mcTest w = false := by simpa using hM
      by_cases hMA : macTest w = true
      · rw [parseWordF_empty_of_find fuel g0 w acc .MAC
          (by rw [find?_defaults, hH', if_neg (by simp), hM', if_neg (by simp), if_pos hMA])]
        rw [applyDefault, macReplaced, if_pos hMA, splitChar_replaced w 3 hw]
        have ht1 : wsFree (strTake w 3) = true := wsFree_strTake w 3 hw
        have ht2 : wsFree (strDrop w 3) = true := wsFree_strDrop w 3 hw
        constructor
        · show wsFree (titleF fuel g0 (strTake w 3) ++ "" ++ titleF fuel g0 (strDrop w 3)) = true
          refine wsFree_append _ _ (wsFree_append _ _ ?_ (by decide)) ?_
          · exact wsFree_titleF fuel g0 _ ht1
          · exact wsFree_titleF fuel g0 _ ht2
        · intro hne
          show titleF fuel g0 (strTake w 3) ++ "" ++ titleF fuel g0 (strDrop w 3) ≠ ""
          refine str_append_ne_empty_left _ _ (str_append_ne_empty_left _ _ ?_)
          exact titleF_ne_empty fuel g0 _ ht1 (strTake_ne_empty w 3 hne (by omega))
      · have hMA' : macTest w = false := by simpa using hMA
        by_cases hD : dloTest w = true
        · rw [parseWordF_empty_of_find fuel g0 w acc .DLO_APOSTRAPHE
            (by rw [find?_defaults, hH', if_neg (by simp), hM', if_neg (by simp),
              hMA', if_neg (by simp), if_pos hD])]
          rw [applyDefault]
          have hsuf : wsFree (titleF fuel g0 (strDrop w 2)) = true :=
            wsFree_titleF fuel g0 _ (wsFree_strDrop w 2 hw)
          by_cases hacc : (acc.length != 0) = true
          · rw [if_pos hacc]
            constructor
            · refine wsFree_append _ _ (wsFree_append _ _ ?_ (by decide)) hsuf
              exact wsFree_strTake w 1 hw
            · intro hne
              refine str_append_ne_empty_left _ _ (str_append_ne_empty_left _ _ ?_)
              exact strTake_ne_empty w 1 hne (by omega)
          · rw [if_neg hacc]
            constructor
            · refine wsFree_append _ _ (wsFree_append _ _ ?_ (by decide)) hsuf
              exact wsFree_strUpper _ (wsFree_strTake w 1 hw)
            · intro hne
              refine str_append_ne_empty_left _ _ (str_append_ne_empty_left _ _ ?_)
              exact strUpper_ne_empty _ (strTake_ne_empty w 1 hne (by omega))
        · have hD' : dloTest w = false := by simpa using hD
          by_cases hR : romanTest w = true
          · rw [parseWordF_empty_of_find fuel g0 w acc .ROMAN_NUMERALS
              (by rw [find?_defaults, hH', if_neg (by simp), hM', if_neg (by simp),
                hMA', if_neg (by simp), hD', if_neg (by simp), if_pos hR])]
            rw [applyDefault]
            exact ⟨wsFree_strUpper w hw, fun hne => strUpper_ne_empty w hne⟩
          · have hR' : romanTest w = false := by simpa using hR
            rw [parseWordF_empty_of_none fuel g0 w acc
              (by rw [find?_defaults, hH', if_neg (by simp), hM', if_neg (by simp),
                hMA', if_neg (by simp), hD', if_neg (by simp), hR', if_neg (by simp)])]
            exact ⟨wsFree_titleF fuel g0 w hw, fun hne => titleF_ne_empty fuel g0 w hw hne⟩

/-- The engine at any fuel keeps a whitespace-free input whitespace-free,
and nonempty when it was nonempty (with the empty effective option set and
empty global options). -/
theorem engineRun_empty_wsFree :
    ∀ fuel, ∀ p, wsFree p = true →
      wsFree (engineRun fuel g0 {} p) = true ∧ (p ≠ "" → engineRun fuel g0 {} p ≠ "") := by
  intro fuel
  induction fuel with
  | zero =>
    intro p hp
    exact ⟨hp, fun h => h⟩
  | succ fuel ih =>
    intro p hp
    rw [engineRun_succ, mergeOptions_empty, jsTrim_of_wsFree p hp, splitWs_of_wsFree p hp]
    have hfold : foldWords (parseWordF fuel g0 {}) [p] [] = [parseWordF fuel g0 {} p []] := by
      rw [foldWords, foldWords]
      rfl
    rw [hfold]
    have := parseWordF_empty_wsFree fuel ih p [] hp
    exact ⟨this.1, this.2⟩

/-- Both properties at the fuel the public entry points use, for each parsed
word. -/
theorem parseWordF_empty_wf (fuel : Nat) :
    ∀ w acc, wsFree w = true →
      wsFree (parseWordF fuel g0 {} w acc) = true ∧
      (w ≠ "" → parseWordF fuel g0 {} w acc ≠ "") :=
  parseWordF_empty_wsFree fuel (engineRun_empty_wsFree fuel)

theorem splitWsCore_ne_nil : ∀ (l : List Char) (cur : List Char) (b : Bool),
    splitWsCore l cur b ≠ [] := by
  intro l
  induction l with
  | nil =>
    intro cur b
    rw [splitWsCore]
    by_cases hb : b
    · rw [if_pos hb]
      simp
    · rw [if_neg hb]
      simp
  | cons a as ih =>
    intro cur b
    rw [splitWsCore]
    by_cases hw : isWs a
    · rw [if_pos hw]
      by_cases hb : b
      · rw [if_pos hb]
        exact ih cur true
      · rw [if_neg hb]
        simp
    · rw [if_neg hw]
      exact ih (a :: cur) false

/-- A token matching the apostrophe-prefix pattern starts with l, d or o
(case-insensitively), so it can match neither the MC nor the MAC pattern. -/
theorem dlo_not_mc_mac (w : String) (hdlo : dloTest w = true) :
    mcTest w = false ∧ macTest w = false := by
  rcases hd : w.data with _ | ⟨c0, _ | ⟨c1, rest⟩⟩
  · rw [show dloTest w = false from by simp only [dloTest, hd]] at hdlo
    simp at hdlo
  · rw [show dloTest w = false from by simp only [dloTest, hd]] at hdlo
    simp at hdlo
  · have hdlo2 : ((c0.toLower == 'l' || c0.toLower == 'd' || c0.toLower == 'o') &&
        (c1 == '\'')) = true := by
      rw [show dloTest w = ((c0.toLower == 'l' || c0.toLower == 'd' || c0.toLower == 'o') &&
        (c1 == '\'')) from by simp only [dloTest, hd]] at hdlo
      exact hdlo
    have hc0 : c0.toLower = 'l' ∨ c0.toLower = 'd' ∨ c0.toLower = 'o' := by
      have h1 := (band_elim hdlo2).1
      simp only [Bool.or_eq_true, beq_iff_eq] at h1
      tauto
    have hm : (c0.toLower == 'm') = false := by
      rcases hc0 with h | h | h
      all_goals rw [h]
      all_goals decide
    constructor
    · rw [show mcTest w = (c0.toLower == 'm' && c1.toLower == 'c' && !rest.isEmpty &&
        rest.all Char.isAlpha) from by simp only [mcTest, hd]]
      rw [hm]
      rfl
    · rcases hr : rest with _ | ⟨c2, rest2⟩
      · rw [show macTest w = false from by simp only [macTest, hd, hr]]
      · rw [show macTest w = (c0.toLower == 'm' && c1.toLower == 'a' && c2.toLower == 'c' &&
          !rest2.isEmpty && rest2.all Char.isAlpha) from by simp only [macTest, hd, hr]]
        rw [hm]
        rfl

/-- No piece produced by a single-character split contains the
separator. -/
theorem splitCharCore_sep_not_mem (sep : Char) (l : List Char) :
    ∀ cur, sep ∉ cur → ∀ t ∈ splitCharCore sep l cur, sep ∉ t.data := by
  induction l with
  | nil =>
    intro cur hcur t ht
    rw [splitCharCore] at ht
    simp only [List.mem_singleton] at ht
    rw [ht, strOf_data]
    intro hm
    exact hcur (List.mem_reverse.mp hm)
  | cons a as ih =>
    intro cur hcur t ht
    rw [splitCharCore] at ht
    by_cases he : a == sep
    · rw [if_pos he] at ht
      rcases List.mem_cons.mp ht with h1 | h2
      · rw [h1, strOf_data]
        intro hm
        exact hcur (List.mem_reverse.mp hm)
      · exact ih [] (by simp) t h2
    · rw [if_neg he] at ht
      refine ih (a :: cur) ?_ t ht
      intro hm
      rcases List.mem_cons.mp hm with h1 | h2
      · rw [h1] at he
        simp at he
      · exact hcur h2

/-- `join` on a list with at least two elements peels off the head. -/
theorem joinWith_cons_of_ne_nil (sep : String) (x : String) (xs : List String)
    (h : xs ≠ []) : joinWith sep (x :: xs) = x ++ sep ++ joinWith sep xs := by
  cases xs with
  | nil => exact absurd rfl h
  | cons y ys => rfl

/-- On a whitespace-free input the engine is the per-word parser at
position 0: trimming is the identity, the split yields the one token, and
the accumulator starts empty. -/
theorem engineRun_empty_of_wsFree (fuel : Nat) (p : String) (hp : wsFree p = true) :
    engineRun (fuel + 1) g0 {} p = parseWordF fuel g0 {} p [] := by
  rw [engineRun_succ, mergeOptions_empty, jsTrim_of_wsFree p hp, splitWs_of_wsFree p hp]
  rw [show foldWords (parseWordF fuel g0 {}) [p] [] = [parseWordF fuel g0 {} p []] from by
    rw [foldWords, foldWords]
    rfl]
  rfl

/-- The apostrophe-prefix emission of `parseWord` under the empty option
set, at any fuel: for a whitespace-free, hyphen-free token matching the
pattern, the first letter is kept verbatim (uppercased at position 0), then
the apostrophe, then the title-cased remainder. -/
theorem parseWordF_dlo (fuel : Nat) (w : String) (acc : List String)
    (hw : wsFree w = true) (hdlo : dloTest w = true)
    (hnoH : w.data.contains '-' = false) :
    parseWordF fuel g0 {} w acc =
      (if acc.length = 0 then strUpper (strTake w 1) else strTake w 1) ++ "'" ++
        toTitleCase (strDrop w 2) := by
  obtain ⟨hM, hMA⟩ := dlo_not_mc_mac w hdlo
  rw [parseWordF_empty_of_find fuel g0 w acc .DLO_APOSTRAPHE
    (by rw [find?_defaults, hnoH, if_neg (by simp), hM, if_neg (by simp),
      hMA, if_neg (by simp), if_pos hdlo])]
  rw [applyDefault]
  have hsuffix : titleF fuel g0 (strDrop w 2) = toTitleCase (strDrop w 2) := by
    rw [singleTitle_of_wsFree_titleF fuel g0 _ (wsFree_strDrop w 2 hw),
      toTitleCase_of_wsFree _ (wsFree_strDrop w 2 hw)]
  rw [hsuffix]
  by_cases hacc : acc.length = 0
  · rw [if_neg (by simp [hacc]), if_pos hacc]
  · rw [if_pos (by simp only [bne_iff_ne]; exact hacc), if_neg hacc]

/-! The claims. -/

/-- C1: conversion of a multi-token input applies the MAC, MC, and MC default
converters correctly and case-insensitively per token:
`convert("macintosh mcclintock MCDONALD")` with default options returns
`"MacIntosh McClintock McDonald"`. -/
theorem claim1_mc_mac_converters :
    toNameCase "macintosh mcclintock MCDONALD" none g0 = "MacIntosh McClintock McDonald" := rfl

/-- C2 counterexample: the claim says the first letter of an
apostrophe-prefix token at position `> 0` is lowercased; the code emits it
verbatim (`charAt(0)` unchanged), so `"smith O'NEILL"` converts to
`"Smith O'Neill"`, not the claimed `"Smith o'Neill"`; and for a hyphenated
apostrophe token the hyphen converter takes precedence and restarts the
position, giving `"Smith D'Arne-Jones"` rather than an unchanged-or-lowered
first letter with a singly title-cased remainder (`"Smith d'Arne-jones"`). -/
theorem claim2_counterexample :
    toNameCase "smith O'NEILL" none g0 = "Smith O'Neill" ∧
    toNameCase "smith d'arne-jones" none g0 = "Smith D'Arne-Jones" ∧
    ("Smith O'Neill" : String) ≠ "Smith o'Neill" ∧
    ("Smith D'Arne-Jones" : String) ≠ "Smith d'Arne-jones" :=
  ⟨rfl, rfl, by decide, by decide⟩

/-- C2 (amended): for every whitespace-free, hyphen-free token matching the
APOSTROPHE_PREFIX pattern, the per-token conversion under default options
(`parseWordF 3 g0 {}` is what `toNameCase` with default options applies to
each token) emits the first letter unchanged, then a literal apostrophe,
then the remainder (from index 2) title-cased; at word position 0 the first
letter is uppercased instead. -/
theorem claim2_dlo_first_char_verbatim :
    ∀ (w : String) (acc : List String),
      wsFree w = true → dloTest w = true → w.data.contains '-' = false →
      parseWordF 3 g0 {} w acc =
        (if acc.length = 0 then strUpper (strTake w 1) else strTake w 1) ++ "'" ++
          toTitleCase (strDrop w 2) := by
  intro w acc hw hdlo hnoH
  exact parseWordF_dlo 3 w acc hw hdlo hnoH

/-- C2 witness: the amended statement at the concrete token `"O'NEILL"` in
second position. -/
theorem claim2_witness :
    wsFree "O'NEILL" = true ∧ dloTest "O'NEILL" = true ∧
    ("O'NEILL" : String).data.contains '-' = false ∧
    parseWordF 3 g0 {} "O'NEILL" ["Smith"] = "O'Neill" := by
  refine ⟨by decide, by decide, by decide, ?_⟩
  rw [claim2_dlo_first_char_verbatim "O'NEILL" ["Smith"] (by decide) (by decide) (by decide)]
  rfl

/-- C3 counterexample: the claim as stated fails for the empty token and a
string-set rule containing the empty string — the rule matches (the empty
member equals the token) but JS `Array.find` returns the falsy `""`, so the
converter runs anyway and the token is not emitted verbatim. -/
theorem claim3_counterexample :
    (∃ r ∈ (mergeOptions emptyMemberOptions g0).ignores, RuleMatches r "") ∧
    toNameCase "" (some emptyMemberOptions) g0 = "X" ∧
    ("X" : String) ≠ "" :=
  ⟨⟨IgnoreRule.strs [""] false, by simp [emptyMemberOptions, mergeOptions, g0],
    ⟨"", by simp, rfl⟩⟩, rfl, by decide⟩

/-- C3 (amended): for every nonempty token and every effective option set
(and any global options), if any IgnoreRule in the effective ignore list
matches the token — exact, case-insensitive, set, or regex partial match —
the token is emitted verbatim, even when custom or default converters would
also match it. -/
theorem claim3_ignore_precedence :
    ∀ (fuel : Nat) (g : GlobalOptions) (opts : Options) (w : String) (acc : List String),
      w ≠ "" → (∃ r ∈ opts.ignores, RuleMatches r w) →
      parseWordF fuel g opts w acc = w := by
  intro fuel g opts w acc hne hr
  obtain ⟨r, hrm, hm⟩ := hr
  have htrig : ruleTriggers w r = true := by
    cases r with
    | str m ci => exact hm
    | regex t => exact hm
    | strs ms ci =>
      obtain ⟨m, hmem, hmatch⟩ := hm
      rw [ruleTriggers]
      have hsome : (ms.find? (fun s => jsMatches w s ci)).isSome := by
        rw [List.find?_isSome]
        exact ⟨m, hmem, hmatch⟩
      obtain ⟨m2, hfind⟩ := Option.isSome_iff_exists.mp hsome
      rw [hfind]
      have hm2 : jsMatches w m2 ci = true := by
        simpa using List.find?_some hfind
      have hm2ne : m2 ≠ "" := by
        intro h0
        apply hne
        rw [h0, jsMatches] at hm2
        cases ci with
        | true =>
          rw [if_pos rfl] at hm2
          have : strLower w = strLower "" := by
            exact beq_iff_eq.mp hm2
          rw [strLower, strLower] at this
          have hd := congrArg String.data this
          simp only [strOf_data] at hd
          have : w.data = [] := by simpa using hd
          exact String.ext (by simpa using this)
        | false =>
          rw [if_neg (by simp)] at hm2
          exact beq_iff_eq.mp hm2
      simpa using hm2ne
  have hany : opts.ignores.any (ruleTriggers w) = true :=
    List.any_eq_true.mpr ⟨r, hrm, htrig⟩
  rw [parseWordF, parseWordWith, if_pos hany]

/-- C3 witness: a case-insensitive string ignore rule wins over the MC
converter that would match the token. -/
theorem claim3_witness :
    parseWordF 3 g0 { ignores := [IgnoreRule.str "mcclane" true] } "McCLANE" ["John"] =
      "McCLANE" :=
  claim3_ignore_precedence 3 g0 { ignores := [IgnoreRule.str "mcclane" true] }
    "McCLANE" ["John"] (by decide)
    ⟨IgnoreRule.str "mcclane" true, by simp,
      show jsMatches "McCLANE" "mcclane" true = true by decide⟩

/-- C4: with `disableDefault: true` and no custom converters or ignore rules
supplied (locally or globally), `convert` emits `titleCase(token)` for every
token of the input. -/
theorem claim4_disable_default_title_fallback :
    ∀ s : String,
      toNameCase s (some { disableDefault := some (Sum.inl true) }) g0 =
        joinWith " " ((splitWs (jsTrim s)).map toTitleCase) := by
  intro s
  rw [toNameCase_eq]
  rw [show mergeOptions ((some ({ disableDefault := some (Sum.inl true) } : Options)).getD {})
    g0 = ({ disableDefault := some (Sum.inl true) } : Options) from rfl]
  rw [show parseWordF 3 g0 { disableDefault := some (Sum.inl true) } =
    (fun w _ => titleF 3 g0 w) from funext fun w => funext fun a => rfl]
  rw [foldWords_const]
  rw [List.nil_append]
  congr 1
  apply List.map_congr_left
  intro t htm
  have hwf : wsFree t = true := splitWsCore_wsFree (jsTrim s).data [] false (by simp) t htm
  rw [singleTitle_of_wsFree_titleF 3 g0 t hwf, toTitleCase_of_wsFree t hwf]

/-- C5: the ROMAN_NUMERALS default converter uppercases Roman-numeral
tokens: `convert("henry viii", { disableDefault: false })` returns
`"Henry VIII"`, while disabling only ROMAN_NUMERALS gives `"Henry Viii"`
(the other defaults stay active). -/
theorem claim5_roman_numerals :
    toNameCase "henry viii" (some { disableDefault := some (Sum.inl false) }) g0 = "Henry VIII" ∧
    toNameCase "henry viii" (some { disableDefault := some (Sum.inr [.ROMAN_NUMERALS]) }) g0 = "Henry Viii" :=
  ⟨rfl, rfl⟩

/-- C6: on whitespace-free input, `titleCase` is the plain positional rule —
first character uppercased, remainder lowercased — and never a name-case
pass; in particular `titleCase("McCLANE") = "Mcclane"`. -/
theorem claim6_title_single_token :
    toTitleCase "McCLANE" = "Mcclane" ∧
    (∀ s, wsFree s = true →
      toTitleCase s = strUpper (strTake s 1) ++ strLower (strDrop s 1)) := by
  refine ⟨rfl, ?_⟩
  intro s hs
  rw [toTitleCase_of_wsFree s hs]
  rfl

/-- C6 witness: the single-token rule applied at `"McCLANE"`. -/
theorem claim6_witness :
    toTitleCase "McCLANE" =
      strUpper (strTake "McCLANE" 1) ++ strLower (strDrop "McCLANE" 1) :=
  claim6_title_single_token.2 "McCLANE" (by decide)

/-- C7 counterexample: `titleCase` is not idempotent on every string — for
`" mcdonald "` the whitespace sends the first pass through the engine (whose
MC converter yields `"McDonald"`), while the second pass takes the
single-token path and mangles it to `"Mcdonald"`. -/
theorem claim7_counterexample :
    toTitleCase " mcdonald " = "McDonald" ∧
    toTitleCase (toTitleCase " mcdonald ") = "Mcdonald" ∧
    toTitleCase (toTitleCase " mcdonald ") ≠ toTitleCase " mcdonald " :=
  ⟨rfl, rfl, by decide⟩

/-- C7 (amended): `titleCase` is idempotent on every whitespace-free input
string. -/
theorem claim7_title_idempotent_wsfree :
    ∀ s : String, wsFree s = true → toTitleCase (toTitleCase s) = toTitleCase s := by
  intro s hs
  rw [toTitleCase_of_wsFree s hs]
  rw [toTitleCase_of_wsFree _ (wsFree_singleTitle s hs)]
  exact singleTitle_idem s

/-- C7 witness: idempotence at `"mcdonald"`. -/
theorem claim7_witness :
    toTitleCase (toTitleCase "mcdonald") = toTitleCase "mcdonald" :=
  claim7_title_idempotent_wsfree "mcdonald" (by decide)

/-- C8: for every input string, the output of `convert` with default options
is well spaced: exactly one space between adjacent output tokens, every
whitespace character a single space, and no leading or trailing
whitespace. -/
theorem claim8_join_invariant :
    ∀ s : String, wellSpaced (toNameCase s none g0) = true := by
  intro s
  rw [toNameCase_eq]
  rw [show mergeOptions ((none : Option Options).getD {}) g0 = ({} : Options) from rfl]
  by_cases ht : jsTrim s = ""
  · rw [ht]
    rfl
  · have hdata : (jsTrim s).data ≠ [] := fun h => ht (String.ext h)
    have htrail : ∀ c, (jsTrim s).data.getLast? = some c → isWs c = false := jsTrim_getLast s
    have hhead : ∃ c, (jsTrim s).data.head? = some c ∧ isWs c = false := by
      rcases hd : (jsTrim s).data with _ | ⟨c, cs⟩
      · exact absurd hd hdata
      · exact ⟨c, rfl, jsTrim_head s c (by rw [hd]; rfl)⟩
    have htok : ∀ t ∈ splitWs (jsTrim s), t ≠ "" ∧ wsFree t = true := by
      intro t htm
      refine ⟨?_, splitWsCore_wsFree (jsTrim s).data [] false (by simp) t htm⟩
      exact splitWsCore_ne_empty (jsTrim s).data [] false htrail
        (by simp) (fun _ _ => hhead) t htm
    have helems : ∀ x ∈ foldWords (parseWordF 3 g0 {}) (splitWs (jsTrim s)) [],
        x ≠ "" ∧ wsFree x = true := by
      refine foldWords_mem _ (fun x => x ≠ "" ∧ wsFree x = true) _ [] ?_ (by simp)
      intro w hwm a
      obtain ⟨hne, hwf⟩ := htok w hwm
      obtain ⟨h1, h2⟩ := parseWordF_empty_wf 3 w a hwf
      exact ⟨h2 hne, h1⟩
    refine wellSpaced_joinWith_space _ ?_ helems
    intro hnil
    have hlen := foldWords_length (parseWordF 3 g0 {}) (splitWs (jsTrim s)) []
    rw [hnil] at hlen
    rcases hsp : splitWs (jsTrim s) with _ | ⟨t, ts⟩
    · exact splitWsCore_ne_nil (jsTrim s).data [] false hsp
    · rw [hsp] at hlen
      simp at hlen

/-- C9: for every input that is empty or all whitespace, `convert` returns
the empty string, and `titleCase("") = ""`. -/
theorem claim9_empty_input :
    (∀ s, (∀ c ∈ s.data, isWs c = true) → toNameCase s none g0 = "") ∧
    toTitleCase "" = "" := by
  constructor
  · intro s hs
    rw [toNameCase_eq]
    rw [show mergeOptions ((none : Option Options).getD {}) g0 = ({} : Options) from rfl]
    rw [jsTrim_of_allWs s hs]
    rfl
  · rfl

/-- C9 witness: the all-whitespace input `"   "`. -/
theorem claim9_witness : toNameCase "   " none g0 = "" :=
  claim9_empty_input.1 "   " (by decide)

/-- C10: hyphen recursion resets the word position.  For every
whitespace-free hyphenated token, at every word position greater than 0
(nonempty accumulator), whose first hyphen-separated (and trimmed) part
matches the apostrophe-prefix pattern, the per-token conversion under
default options splits the token, runs each part through a fresh engine
whose accumulator starts at position 0, and therefore emits the first
part with its first letter uppercased — the position-0 branch of the
apostrophe converter — despite the token's own position being positive;
in particular `convert("smith d'arne-jones") = "Smith D'Arne-Jones"`. -/
theorem claim10_hyphen_resets_position :
    (∀ (w p : String) (rest : List String) (acc : List String),
      wsFree w = true →
      w.data.contains '-' = true →
      (splitChar '-' w).map jsTrim = p :: rest →
      dloTest p = true →
      acc ≠ [] →
      parseWordF 3 g0 {} w acc =
        (strUpper (strTake p 1) ++ "'" ++ toTitleCase (strDrop p 2)) ++ "-" ++
          joinWith "-" (rest.map (fun part => engineRun 3 g0 ({} : Options) part))) ∧
    toNameCase "smith d'arne-jones" none g0 = "Smith D'Arne-Jones" := by
  constructor
  · intro w p rest acc hw hH hsplit hdlo _
    rw [parseWordF_empty_of_find 3 g0 w acc .HYPENATED
      (by rw [find?_defaults, if_pos hH])]
    rw [applyDefault, hsplit, List.map_cons]
    have hlen2 : 2 ≤ ((splitChar '-' w).map jsTrim).length := by
      simpa using splitCharCore_length_ge_two '-' w.data (by simpa using hH) []
    have hrest : rest ≠ [] := by
      intro h0
      rw [hsplit, h0] at hlen2
      simp at hlen2
    rw [joinWith_cons_of_ne_nil "-" _ _ (by simpa using hrest)]
    have hpmem : p ∈ (splitChar '-' w).map jsTrim := by
      rw [hsplit]
      simp
    obtain ⟨q, hq, hpq⟩ := List.mem_map.mp hpmem
    have hqw : wsFree q = true :=
      splitCharCore_wsFree '-' w.data [] (by simp)
        (fun c hc => (wsFree_iff w).mp hw c hc) q hq
    have hpeq : p = q := by
      rw [← hpq, jsTrim_of_wsFree q hqw]
    have hwp : wsFree p = true := by
      rw [hpeq]
      exact hqw
    have hnoHp : p.data.contains '-' = false := by
      have hq2 : '-' ∉ q.data := splitCharCore_sep_not_mem '-' w.data [] (by simp) q hq
      rw [hpeq]
      simpa using hq2
    congr 1
    congr 1
    rw [show (3 : Nat) = 2 + 1 from rfl, engineRun_empty_of_wsFree 2 p hwp]
    rw [parseWordF_dlo 2 p [] hwp hdlo hnoHp]
    rfl
  · rfl

/-- C10 witness: the universal statement at the token `"d'arne-jones"` in
second position. -/
theorem claim10_witness :
    wsFree "d'arne-jones" = true ∧
    ("d'arne-jones" : String).data.contains '-' = true ∧
    (splitChar '-' "d'arne-jones").map jsTrim = ["d'arne", "jones"] ∧
    dloTest "d'arne" = true ∧
    (["Smith"] : List String) ≠ [] ∧
    parseWordF 3 g0 {} "d'arne-jones" ["Smith"] = "D'Arne-Jones" := by
  refine ⟨by decide, by decide, by decide, by decide, by decide, ?_⟩
  rw [claim10_hyphen_resets_position.1 "d'arne-jones" "d'arne" ["jones"] ["Smith"]
    (by decide) (by decide) (by decide) (by decide) (by decide)]
  rfl

end CaseConverter
